import Mathlib

/-!
A verification development for the indicator/normalization core of the
`toolbox` repository (src/indicators.ts, src/utils.ts).

Modelling conventions:
* JavaScript numbers are modelled as exact rationals (`ℚ`), except where
  the reference implementation genuinely produces `NaN`/`Infinity`
  through division by zero: the RSI arithmetic of `calculateRSI` (a flat
  window gives `0/0 = NaN`) and the MFI output value of `calculateMFI`
  (a money ratio of exactly -1 gives `100 - 100/0 = -Infinity`).  Those
  computations are modelled with `JsNum`, an extension of `ℚ` by the IEEE
  special values `NaN`, `+Infinity` and `-Infinity` with JavaScript's
  propagation rules (rounding is not modelled: every intermediate value
  in scope is exact).
* The `NaN` sentinel pushed by `calculateATR` for the warm-up indices and
  the `null` entries of the MACD/MFI series are modelled as `Option ℚ`
  with `none` for the sentinel.
* A thrown exception is modelled as `Except.error` / `Option.none`.
* TypeScript arrays are Lean lists; `arr.push` appends at the back,
  `arr.shift()` drops the head, `arr[i]` is `List.get?`.
-/

/- Batteries marks the `Rat` field operations `@[irreducible]`, which
blocks `decide` on concrete rational computations; restore the default
transparency so that witnesses can be checked by evaluation. -/
set_option allowUnsafeReducibility true in
attribute [semireducible] Rat.add Rat.sub Rat.mul Rat.inv

namespace Toolbox

/-- A kline (candle).  Source type: a 12-field tuple; the code reads only
fields 1–5 (open, high, low, close, volume), converting each with
`Number(...)`; the remaining fields are never consumed by the functions
modelled here. -/
structure Kline where
  «open» : ℚ
  high : ℚ
  low : ℚ
  close : ℚ
  volume : ℚ
deriving DecidableEq, Repr

/-- `utils.ts` `normalize(value, min, max)`: `0` when `max === min`, else
`((value - min) / (max - min)) * 2 - 1`. -/
def normalize (value mn mx : ℚ) : ℚ :=
  if mx = mn then 0 else ((value - mn) / (mx - mn)) * 2 - 1

/-- `utils.ts` `unnormalize(normalized, min, max)`:
`((normalized + 1) / 2) * (max - min) + min`. -/
def unnormalize (normalized mn mx : ℚ) : ℚ :=
  ((normalized + 1) / 2) * (mx - mn) + mn

/-- Consecutive differences `l[i+1] - l[i]`, the common "change"/"delta"
loop of `calculateRSI` and `getSeriesTrend`/`getSeriesVolatility`. -/
def deltas : List ℚ → List ℚ
  | a :: b :: rest => (b - a) :: deltas (b :: rest)
  | _ => []

/-- `utils.ts` `getSeriesTrend(series, window)`: returns `1` for series
shorter than 2; otherwise clamps the window to `series.length - 1`, slices
the last `window + 1` points and returns the summed signed deltas divided
by the window. -/
def getSeriesTrend (series : List ℚ) (window : ℕ) : ℚ :=
  if series.length < 2 then 1
  else
    let w := min (series.length - 1) window
    let recent := series.drop (series.length - (w + 1))
    (deltas recent).sum / (w : ℚ)

/-- The recurrence loop of `calculateEMA`: given the previous accumulator
`prev`, each step pushes `x * k + prev * (1 - k)`. -/
def emaLoop (k : ℚ) : ℚ → List ℚ → List ℚ
  | _, [] => []
  | prev, x :: xs =>
    let nxt := x * k + prev * (1 - k)
    nxt :: emaLoop k nxt xs

/-- `indicators.ts` `calculateEMA(data, period)`: `k = 2 / (period + 1)`,
first output is `data[0]`, then the smoothing recurrence.  An empty input
yields an empty output (the source loop body never runs). -/
def calculateEMA (data : List ℚ) (period : ℕ) : List ℚ :=
  match data with
  | [] => []
  | x :: xs => x :: emaLoop (2 / ((period : ℚ) + 1)) x xs

/-- The true-range pass of `calculateATR`: `prevClose` is the previous
candle's close, seeded with the first candle's own high (`i = 0` case of
the source's `closePrev`). -/
def trueRangesAux : ℚ → List Kline → List ℚ
  | _, [] => []
  | prevClose, k :: ks =>
    max (k.high - k.low) (max |k.high - prevClose| |k.low - prevClose|) ::
      trueRangesAux k.close ks

/-- The `trs` array of `calculateATR`. -/
def trueRanges (klines : List Kline) : List ℚ :=
  match klines with
  | [] => []
  | k :: _ => trueRangesAux k.high klines

/-- The second loop of `calculateATR`: `i < period` pushes the `NaN`
sentinel (modelled `none`) while accumulating `sumTR`; `i = period` pushes
`sumTR / period` (with the current true range included in the sum);
`i > period` applies Wilder smoothing to the previously pushed value. -/
def atrLoop (period : ℕ) : List ℚ → ℕ → ℚ → ℚ → List (Option ℚ)
  | [], _, _, _ => []
  | tr :: rest, i, sumTR, prevATR =>
    if i < period then
      none :: atrLoop period rest (i + 1) (sumTR + tr) prevATR
    else if i = period then
      let firstATR := (sumTR + tr) / (period : ℚ)
      some firstATR :: atrLoop period rest (i + 1) (sumTR + tr) firstATR
    else
      let currentATR := (prevATR * ((period : ℚ) - 1) + tr) / (period : ℚ)
      some currentATR :: atrLoop period rest (i + 1) sumTR currentATR

/-- `indicators.ts` `calculateATR(klines, period)`. -/
def calculateATR (klines : List Kline) (period : ℕ) : List (Option ℚ) :=
  atrLoop period (trueRanges klines) 0 0 0

/-- A JavaScript number restricted to the values reachable by the code
modelled here: an exact rational, or one of the IEEE special values `NaN`,
`+Infinity` (`inf`) and `-Infinity` (`ninf`).  Used for `calculateRSI`,
whose reference implementation divides by zero on flat price windows;
rounding and signed zero are not modelled (all inputs in scope are exact
and no operation below distinguishes `-0`). -/
inductive JsNum where
  | fin (q : ℚ)
  | nan
  | inf
  | ninf
deriving DecidableEq, Repr

namespace JsNum

/-- IEEE addition on `JsNum` (JavaScript `+`). -/
def add : JsNum → JsNum → JsNum
  | nan, _ => nan
  | _, nan => nan
  | fin a, fin b => fin (a + b)
  | inf, ninf => nan
  | ninf, inf => nan
  | inf, _ => inf
  | _, inf => inf
  | ninf, _ => ninf
  | _, ninf => ninf

/-- IEEE negation on `JsNum`. -/
def neg : JsNum → JsNum
  | nan => nan
  | fin a => fin (-a)
  | inf => ninf
  | ninf => inf

/-- IEEE subtraction on `JsNum` (JavaScript `-`). -/
def sub (a b : JsNum) : JsNum := add a (neg b)

/-- IEEE multiplication on `JsNum` (JavaScript `*`). -/
def mul : JsNum → JsNum → JsNum
  | nan, _ => nan
  | _, nan => nan
  | fin a, fin b => fin (a * b)
  | inf, fin b => if b = 0 then nan else if 0 < b then inf else ninf
  | fin a, inf => if a = 0 then nan else if 0 < a then inf else ninf
  | ninf, fin b => if b = 0 then nan else if 0 < b then ninf else inf
  | fin a, ninf => if a = 0 then nan else if 0 < a then ninf else inf
  | inf, inf => inf
  | ninf, ninf => inf
  | inf, ninf => ninf
  | ninf, inf => ninf

/-- IEEE division on `JsNum` (JavaScript `/`): `0/0 = NaN`,
`x/0 = ±Infinity` for `x ≠ 0`, finite÷infinite is `0`,
infinite÷infinite is `NaN`. -/
def div : JsNum → JsNum → JsNum
  | nan, _ => nan
  | _, nan => nan
  | fin a, fin b =>
    if b = 0 then (if a = 0 then nan else if 0 < a then inf else ninf)
    else fin (a / b)
  | fin _, inf => fin 0
  | fin _, ninf => fin 0
  | inf, fin b => if b < 0 then ninf else inf
  | ninf, fin b => if b < 0 then inf else ninf
  | inf, inf => nan
  | inf, ninf => nan
  | ninf, inf => nan
  | ninf, ninf => nan

/-- The finite value of a `JsNum`, `none` for the non-finite ones.  Used
where a downstream consumer would observe `NaN`/`±Infinity`. -/
def toOpt : JsNum → Option ℚ
  | fin q => some q
  | _ => none

end JsNum

/-- The first RSI loop: simple totals of gains and losses over a list of
price changes (`change > 0` adds to the gain total, `change < 0` adds
`|change|` to the loss total). -/
def gainsLosses (changes : List ℚ) : ℚ × ℚ :=
  changes.foldl
    (fun gl c =>
      if 0 < c then (gl.1 + c, gl.2)
      else if c < 0 then (gl.1, gl.2 + |c|)
      else gl)
    (0, 0)

/-- The Wilder recurrence loop of `calculateRSI`, pushing one RSI value per
remaining change.  The accumulators and the RSI arithmetic are `JsNum`
because `gain / loss` is an honest JavaScript division: `0 / 0 = NaN`
propagates to the output and `x / 0 = Infinity` (for `x > 0`) yields
`100 - 100 / (1 + Infinity) = 100`.  The changes themselves are exact
rationals, so the sign tests are the JavaScript ones. -/
def rsiLoop (period : ℕ) : JsNum → JsNum → List ℚ → List JsNum
  | _, _, [] => []
  | g, l, c :: cs =>
    let gl :=
      if 0 < c then
        (JsNum.div (JsNum.add (JsNum.mul g (.fin ((period : ℚ) - 1))) (.fin c)) (.fin (period : ℚ)),
         JsNum.div (JsNum.mul l (.fin ((period : ℚ) - 1))) (.fin (period : ℚ)))
      else if c < 0 then
        (JsNum.div (JsNum.mul g (.fin ((period : ℚ) - 1))) (.fin (period : ℚ)),
         JsNum.div (JsNum.add (JsNum.mul l (.fin ((period : ℚ) - 1))) (.fin |c|)) (.fin (period : ℚ)))
      else (g, l)
    let rs := JsNum.div gl.1 gl.2
    let currentRSI := JsNum.sub (.fin 100) (JsNum.div (.fin 100) (JsNum.add (.fin 1) rs))
    currentRSI :: rsiLoop period gl.1 gl.2 cs

/-- The body of `calculateRSI` past the length guard: initial simple
averages over the first `period` changes, the initial RSI, then the Wilder
recurrence over the remaining changes. -/
def rsiCore (prices : List ℚ) (period : ℕ) : List JsNum :=
  let changes := deltas prices
  let totals := gainsLosses (changes.take period)
  let initialAverageGain := JsNum.div (.fin totals.1) (.fin (period : ℚ))
  let initialAverageLoss := JsNum.div (.fin totals.2) (.fin (period : ℚ))
  let initialRS := JsNum.div initialAverageGain initialAverageLoss
  let initialRSI := JsNum.sub (.fin 100) (JsNum.div (.fin 100) (JsNum.add (.fin 1) initialRS))
  initialRSI :: rsiLoop period initialAverageGain initialAverageLoss (changes.drop period)

/-- `indicators.ts` `calculateRSI(prices, period)`: throws (modelled
`none`) when `prices.length < period + 1`, else returns one RSI value per
change from index `period` on (`prices.length - period` values). -/
def calculateRSI (prices : List ℚ) (period : ℕ) : Option (List JsNum) :=
  if prices.length < period + 1 then none else some (rsiCore prices period)

/-- `indicators.ts` `calculateMACD(prices, fast, slow, signal)`.  The MACD
line subtracts the two EMAs pointwise (both are everywhere defined, the
source's `!= null` test is the `Option.some` case); the signal line is the
EMA of the null-cleaned MACD line; the histogram subtracts signal from
MACD where both are defined. -/
def calculateMACD (prices : List ℚ) (fastPeriod slowPeriod signalPeriod : ℕ) :
    List (Option ℚ) × List (Option ℚ) × List (Option ℚ) :=
  let emaFast := calculateEMA prices fastPeriod
  let emaSlow := calculateEMA prices slowPeriod
  let macd := (List.range prices.length).map fun i =>
    match emaFast.get? i, emaSlow.get? i with
    | some fast, some slow => some (fast - slow)
    | _, _ => none
  let macdCleaned := macd.map fun v => v.getD 0
  let signalLine := calculateEMA macdCleaned signalPeriod
  let signal := (List.range prices.length).map fun i => signalLine.get? i
  let histogram := (List.range prices.length).map fun i =>
    match macd.get? i, signalLine.get? i with
    | some (some m), some s => some (m - s)
    | _, _ => none
  (macd, signal, histogram)

/-- The typical price `(high + low + close) / 3` of `calculateMFI`. -/
def typicalPrice (k : Kline) : ℚ := (k.high + k.low + k.close) / 3

/-- The state of the `calculateMFI` scan: the two money-flow queues
(pushed at the back, shifted at the front) and the output array.  An
output entry is `none` for `null` and otherwise a `JsNum`: the written
value is a JavaScript number that can be non-finite (see `mfiValue`). -/
structure MfiState where
  pos : List ℚ
  neg : List ℚ
  out : List (Option JsNum)

/-- The MFI value written at an output index: the `periodNegativeMoneyFlow
!== 0` branch computes `100 - 100 / (1 + positive / negative)`, otherwise
the defined policy value `100`.  The arithmetic of the first branch is
JavaScript arithmetic: the money ratio is finite (its divisor is
nonzero), but when it is exactly `-1` — reachable with negative money
flows, e.g. from negative volumes — the branch divides by zero and
produces `100 - Infinity = -Infinity`, which `JsNum` represents
faithfully. -/
def mfiValue (pos neg : List ℚ) : JsNum :=
  if neg.sum ≠ 0 then
    JsNum.sub (.fin 100)
      (JsNum.div (.fin 100) (JsNum.add (.fin 1) (JsNum.div (.fin pos.sum) (.fin neg.sum))))
  else .fin 100

/-- One iteration of the `calculateMFI` loop at index `i` (current kline
`cur`, previous kline `prev`): classify the money flow by comparing
typical prices, push it on the matching queue, shift the *other* queue
when that one holds at least `period` entries (on a tie push nothing and
shift both oversized queues), then, from index `period` on, write
`mfiValue` of the updated queues at output index `i`. -/
def mfiStep (period : ℕ) (prev cur : Kline) (i : ℕ) (s : MfiState) : MfiState :=
  let tp := typicalPrice cur
  let ptp := typicalPrice prev
  let moneyFlow := tp * cur.volume
  let queues :=
    if ptp < tp then
      (s.pos ++ [moneyFlow], if period ≤ s.neg.length then s.neg.tail else s.neg)
    else if tp < ptp then
      (if period ≤ s.pos.length then s.pos.tail else s.pos, s.neg ++ [moneyFlow])
    else
      (if period ≤ s.pos.length then s.pos.tail else s.pos,
       if period ≤ s.neg.length then s.neg.tail else s.neg)
  let out :=
    if period ≤ i then s.out.set i (some (mfiValue queues.1 queues.2))
    else s.out
  ⟨queues.1, queues.2, out⟩

/-- The `calculateMFI` loop from index `i` on: `prev` is `klines[i - 1]`,
`rest` the klines from index `i` on. -/
def mfiLoop (period : ℕ) : Kline → List Kline → ℕ → MfiState → MfiState
  | _, [], _, s => s
  | prev, k :: ks, i, s => mfiLoop period k ks (i + 1) (mfiStep period prev k i s)

/-- The trajectory of `mfiLoop`: the state after each iteration, in
order.  (`mfiLoop` returns the last entry; see `mfiLoop_eq_getLast`.) -/
def mfiStates (period : ℕ) : Kline → List Kline → ℕ → MfiState → List MfiState
  | _, [], _, _ => []
  | prev, k :: ks, i, s =>
    let nxt := mfiStep period prev k i s
    nxt :: mfiStates period k ks (i + 1) nxt

/-- `indicators.ts` `calculateMFI(klines, period)`: all-`null` for fewer
than `period` klines, else the scan from index 1 over an output array
pre-filled with `null`. -/
def calculateMFI (klines : List Kline) (period : ℕ) : List (Option JsNum) :=
  if klines.length < period then List.replicate klines.length none
  else
    match klines with
    | [] => []
    | k :: ks => (mfiLoop period k ks 1 ⟨[], [], List.replicate (ks.length + 1) none⟩).out

/-- The state trajectory of `calculateMFI`'s scan on a given input (the
states after the iterations `i = 1, …, klines.length - 1`). -/
def mfiStatesOf (klines : List Kline) (period : ℕ) : List MfiState :=
  match klines with
  | [] => []
  | k :: ks => mfiStates period k ks 1 ⟨[], [], List.replicate (ks.length + 1) none⟩

/-- `Math.min(...l)` as used on the nonempty-guarded arrays of
`calculateIndicators`; the `0` for `[]` is the source's
`valid.length ? Math.min(...valid) : 0` fallback. -/
def arrMin : List ℚ → ℚ
  | [] => 0
  | x :: xs => xs.foldl min x

/-- `Math.max(...l)`, with the same `0`-for-empty fallback. -/
def arrMax : List ℚ → ℚ
  | [] => 0
  | x :: xs => xs.foldl max x

/-- The `parameters` object of `calculateIndicators`. -/
structure IndicatorParams where
  ultraSlowEmaPeriod : ℕ
  superSlowEmaPeriod : ℕ
  slowEmaPeriod : ℕ
  fastEmaPeriod : ℕ
  slowRsiPeriod : ℕ
  fastRsiPeriod : ℕ
  mfiPeriod : ℕ
  atrPeriod : ℕ
deriving DecidableEq, Repr

/-- `maxPeriodRequired` of `calculateIndicators`:
`Math.max(ultra, fast, slow, super, fastRsi + 1, slowRsi + 1, mfi, atr)`. -/
def maxPeriodRequired (p : IndicatorParams) : ℕ :=
  max p.ultraSlowEmaPeriod (max p.fastEmaPeriod (max p.slowEmaPeriod
    (max p.superSlowEmaPeriod (max (p.fastRsiPeriod + 1) (max (p.slowRsiPeriod + 1)
      (max p.mfiPeriod p.atrPeriod))))))

/-- The record returned by `calculateIndicators`. -/
structure Indicators where
  klines : List Kline
  closePrices : List ℚ
  volumes : List ℚ
  ultraSlowEma : List ℚ
  superSlowEma : List ℚ
  slowEma : List ℚ
  fastEma : List ℚ
  slowRsi : List JsNum
  fastRsi : List JsNum
  macd : List (Option ℚ)
  signal : List (Option ℚ)
  histogram : List (Option ℚ)
  mfi : List (Option JsNum)
  atr : List (Option ℚ)
  minPrice : ℚ
  maxPrice : ℚ
  minVolume : ℚ
  maxVolume : ℚ
  minMACD : ℚ
  maxMACD : ℚ
  minSignal : ℚ
  maxSignal : ℚ
  minHistogram : ℚ
  maxHistogram : ℚ

/-- `indicators.ts` `calculateIndicators(klines, parameters)`: throws
(modelled `Except.error`) unless the kline count exceeds
`maxPeriodRequired`; otherwise computes every series (the two inner
`calculateRSI` throws would propagate, hence the `match`) and the per-group
bounds.  MACD is called with its default periods 12/26/9. -/
def calculateIndicators (klines : List Kline) (parameters : IndicatorParams) :
    Except String Indicators :=
  if klines.length ≤ maxPeriodRequired parameters then
    .error "Not enough klines to compute indicators."
  else
    let closePrices := klines.map (·.close)
    let volumes := klines.map (·.volume)
    match calculateRSI closePrices parameters.slowRsiPeriod,
        calculateRSI closePrices parameters.fastRsiPeriod with
    | some slowRsi, some fastRsi =>
      let macdTriple := calculateMACD closePrices 12 26 9
      let macd := macdTriple.1
      let signal := macdTriple.2.1
      let histogram := macdTriple.2.2
      let validMacd := macd.filterMap id
      let validSignal := signal.filterMap id
      let validHistogram := histogram.filterMap id
      .ok
        { klines := klines
          closePrices := closePrices
          volumes := volumes
          ultraSlowEma := calculateEMA closePrices parameters.ultraSlowEmaPeriod
          superSlowEma := calculateEMA closePrices parameters.superSlowEmaPeriod
          slowEma := calculateEMA closePrices parameters.slowEmaPeriod
          fastEma := calculateEMA closePrices parameters.fastEmaPeriod
          slowRsi := slowRsi
          fastRsi := fastRsi
          macd := macd
          signal := signal
          histogram := histogram
          mfi := calculateMFI klines parameters.mfiPeriod
          atr := calculateATR klines parameters.atrPeriod
          minPrice := arrMin (klines.map (·.low))
          maxPrice := arrMax (klines.map (·.high))
          minVolume := arrMin volumes
          maxVolume := arrMax volumes
          minMACD := arrMin validMacd
          maxMACD := arrMax validMacd
          minSignal := arrMin validSignal
          maxSignal := arrMax validSignal
          minHistogram := arrMin validHistogram
          maxHistogram := arrMax validHistogram }
    | _, _ => .error "Cannot calculate RSI"

/-- The `normalizedVolume` expression of `normalizeIndicators`:
`minVolume === maxVolume ? 0 : (volume - min) / (max - min)` (into
`[0, 1]`, not price-style affine). -/
def volumeSlot (inds : Indicators) (kline : Kline) : ℚ :=
  if inds.minVolume = inds.maxVolume then 0
  else (kline.volume - inds.minVolume) / (inds.maxVolume - inds.minVolume)

/-- The `normalizedFastEMA`-style expressions of `normalizeIndicators`:
`series[i] != null ? normalize(series[i], minPrice, maxPrice) : 0`; an
out-of-bounds access fails the `!= null` test, every present entry (a
plain number) passes it. -/
def emaSlot (inds : Indicators) (i : ℕ) (l : List ℚ) : Option ℚ :=
  match l.get? i with
  | some v => some (normalize v inds.minPrice inds.maxPrice)
  | none => some 0

/-- The `normalizedFastRSI`-style expressions: `rsi[i] != null ?
rsi[i] / 100 : 0`.  A `NaN` or `Infinity` RSI entry *passes* the
`!= null` test and is divided by 100, producing a non-finite row value
(`none`); only out-of-bounds indices yield the literal `0`. -/
def rsiSlot (i : ℕ) (l : List JsNum) : Option ℚ :=
  match l.get? i with
  | some r => (JsNum.div r (.fin 100)).toOpt
  | none => some 0

/-- The `normalizedMACD`-style expressions: `series[i] != null ?
normalize(series[i], mn, mx) : 0` over a nullable series. -/
def nullSlot (i : ℕ) (l : List (Option ℚ)) (mn mx : ℚ) : Option ℚ :=
  match l.get? i with
  | some (some v) => some (normalize v mn mx)
  | _ => some 0

/-- The `normalizedMFI` expression: `mfi[i] != null ? mfi[i] / 100 : 0`.
A non-finite MFI entry (the `-Infinity` of `mfiValue`) passes the
`!= null` test and stays non-finite after the division (`none` in the
row); only `null` and out-of-bounds entries yield the literal `0`. -/
def mfiSlot (inds : Indicators) (i : ℕ) : Option ℚ :=
  match inds.mfi.get? i with
  | some (some v) => (JsNum.div v (.fin 100)).toOpt
  | _ => some 0

/-- The `normalizedATR` expression: the `NaN` warm-up sentinel *passes*
the `!= null` test and flows into `normalize`, whose degenerate-range
guard still returns 0 before touching the value — otherwise `NaN`
propagates (`none`); a true out-of-bounds access yields the literal 0. -/
def atrSlot (inds : Indicators) (i : ℕ) : Option ℚ :=
  match inds.atr.get? i with
  | some (some v) => some (normalize v inds.minPrice inds.maxPrice)
  | some none => if inds.maxPrice = inds.minPrice then some 0 else none
  | none => some 0

/-- One feature row of `normalizeIndicators` (the callback of
`klines.map((kline, i) => ...)`).  A row entry is `Option ℚ` with `none`
for a non-finite JavaScript number. -/
def normalizeRow (inds : Indicators) (i : ℕ) (kline : Kline) : List (Option ℚ) :=
  [some (normalize kline.open inds.minPrice inds.maxPrice),
   some (normalize kline.high inds.minPrice inds.maxPrice),
   some (normalize kline.low inds.minPrice inds.maxPrice),
   some (normalize kline.close inds.minPrice inds.maxPrice),
   some (volumeSlot inds kline),
   emaSlot inds i inds.fastEma,
   emaSlot inds i inds.slowEma,
   emaSlot inds i inds.superSlowEma,
   emaSlot inds i inds.ultraSlowEma,
   rsiSlot i inds.fastRsi,
   rsiSlot i inds.slowRsi,
   nullSlot i inds.macd inds.minMACD inds.maxMACD,
   nullSlot i inds.signal inds.minSignal inds.maxSignal,
   nullSlot i inds.histogram inds.minHistogram inds.maxHistogram,
   mfiSlot inds i,
   atrSlot inds i]

/-- `indicators.ts` `normalizeIndicators(indicators)`: one 16-wide feature
row per kline, in input order. -/
def normalizeIndicators (inds : Indicators) : List (List (Option ℚ)) :=
  inds.klines.enum.map fun p => normalizeRow inds p.1 p.2

/-! Concrete inputs used by witnesses and counterexamples. -/

/-- Two candles whose true ranges are 2 and 3. -/
def atrKlines : List Kline := [⟨2, 3, 1, 2, 1⟩, ⟨4, 5, 4, 4, 1⟩]

/-- Three candles with strictly increasing typical price (1, 2, 3). -/
def c1Klines : List Kline := [⟨1, 1, 1, 1, 1⟩, ⟨2, 2, 2, 2, 1⟩, ⟨3, 3, 3, 3, 1⟩]

/-- Four identical candles: open 10, high 11, low 9, close 10, volume 1. -/
def sampleKlines : List Kline := List.replicate 4 ⟨10, 11, 9, 10, 1⟩

/-- Every configured period set to 2 (`maxPeriodRequired` is then 3). -/
def sampleParams : IndicatorParams := ⟨2, 2, 2, 2, 2, 2, 2, 2⟩

/-- Four candles with constant close 10 but a negative volume on the
second candle, whose high 12 also makes its typical price larger than its
neighbours'. -/
def c5Klines : List Kline :=
  [⟨10, 11, 9, 10, 1⟩, ⟨10, 12, 9, 10, -3⟩, ⟨10, 11, 9, 10, 1⟩, ⟨10, 11, 9, 10, 1⟩]

/-- A single trivial candle. -/
def oneKline : List Kline := [⟨1, 1, 1, 1, 1⟩]

/-! ## Claim C8 -/

/-- Claim C8: for every `min < max` and every value `x`,
`unnormalize (normalize x min max) min max = x` exactly over the rationals
— `normalize` and `unnormalize` are mutual inverses on non-degenerate
ranges. -/
theorem C8_normalize_unnormalize_inverse (x mn mx : ℚ) (h : mn < mx) :
    unnormalize (normalize x mn mx) mn mx = x := by
  unfold normalize unnormalize
  rw [if_neg (ne_of_gt h)]
  have hne : mx - mn ≠ 0 := sub_ne_zero.mpr (ne_of_gt h)
  field_simp
  ring

/-- Witness for C8 at `x = 3`, `min = 0`, `max = 2`. -/
theorem C8_normalize_unnormalize_inverse_witness :
    (0 : ℚ) < 2 ∧ unnormalize (normalize 3 0 2) 0 2 = 3 :=
  ⟨by norm_num, C8_normalize_unnormalize_inverse 3 0 2 (by norm_num)⟩

/-! ## Claim C4 -/

/-- Claim C4 is violated by the code: on the constant price series
`[5, 5, 5]` with period 2 (average loss 0 at every step, accepted by the
length guard), `calculateRSI` computes `initialRS = 0 / 0 = NaN` — there
is no `avgLoss == 0` special case in the source — and returns `NaN`, not
the claimed 100. -/
theorem C4_rsi_constant_series_nan :
    calculateRSI [(5 : ℚ), 5, 5] 2 = some [JsNum.nan] := by decide

/-! ## Claim C1 -/

/-- Claim C1 is violated by the code: with period 1 and three klines of
strictly increasing typical price, every step pushes onto the positive
queue while eviction only ever targets the queue *opposite* to the step's
classification, so the positive queue grows to 2 > period = 1 entries.
The scan states show positive-queue lengths [1, 2]. -/
theorem C1_mfi_queue_exceeds_period :
    ((mfiStatesOf c1Klines 1).map fun s => s.pos.length) = [1, 2] ∧
    ¬ ∀ s ∈ mfiStatesOf c1Klines 1, s.pos.length ≤ 1 :=
  ⟨by decide, by decide⟩

/-! ## Claim C7, the period = 0 boundary -/

/-- Claim C7 as stated is false for `period = 0`: on a single kline the
input count 1 exceeds the period, yet the scan loop starts at index 1 and
never writes index 0, so `calculateMFI` returns `[null]` where the claim
demands a numeric value at every index `i ≥ 0`. -/
theorem C7_period_zero_counterexample :
    0 < oneKline.length ∧ calculateMFI oneKline 0 = [none] :=
  ⟨by decide, by decide⟩

/-! ## Claim C3 -/

theorem trueRangesAux_length (c : ℚ) (l : List Kline) :
    (trueRangesAux c l).length = l.length := by
  induction l generalizing c with
  | nil => rfl
  | cons k ks ih => simp [trueRangesAux, ih]

theorem trueRanges_length (klines : List Kline) :
    (trueRanges klines).length = klines.length := by
  cases klines with
  | nil => rfl
  | cons k ks => simp [trueRanges, trueRangesAux_length]

theorem atrLoop_length (period : ℕ) (trs : List ℚ) (i : ℕ) (s p : ℚ) :
    (atrLoop period trs i s p).length = trs.length := by
  induction trs generalizing i s p with
  | nil => rfl
  | cons t rest ih =>
    simp only [atrLoop]
    split_ifs <;> simp [ih]

theorem atrLoop_get_none (period : ℕ) (trs : List ℚ) (i : ℕ) (s p : ℚ) (j : ℕ)
    (hj : j < trs.length) (hlt : i + j < period) :
    (atrLoop period trs i s p).get? j = some none := by
  induction trs generalizing i s p j with
  | nil => simp at hj
  | cons t rest ih =>
    cases j with
    | zero =>
      have h1 : i < period := by omega
      simp [atrLoop, h1]
    | succ j =>
      have h1 : i < period := by omega
      simp only [atrLoop, if_pos h1, List.get?_cons_succ]
      exact ih (i + 1) (s + t) p j (by simpa using hj) (by omega)

theorem atrLoop_get_isSome (period : ℕ) (trs : List ℚ) (i : ℕ) (s p : ℚ) (j : ℕ)
    (hj : j < trs.length) (hge : period ≤ i + j) :
    ∃ q, (atrLoop period trs i s p).get? j = some (some q) := by
  induction trs generalizing i s p j with
  | nil => simp at hj
  | cons t rest ih =>
    cases j with
    | zero =>
      have h1 : ¬ i < period := by omega
      by_cases h2 : i = period
      · exact ⟨(s + t) / (period : ℚ), by simp [atrLoop, h1, h2]⟩
      · exact ⟨(p * ((period : ℚ) - 1) + t) / (period : ℚ), by simp [atrLoop, h1, h2]⟩
    | succ j =>
      simp only [atrLoop]
      split_ifs
      all_goals
        simp only [List.get?_cons_succ]
        exact ih (i + 1) _ _ j (by simpa using hj) (by omega)

theorem atrLoop_get_seed (period : ℕ) (trs : List ℚ) (i : ℕ) (s p : ℚ) (j : ℕ)
    (hj : j < trs.length) (hij : i + j = period) :
    (atrLoop period trs i s p).get? j =
      some (some ((s + (trs.take (j + 1)).sum) / (period : ℚ))) := by
  induction trs generalizing i s p j with
  | nil => simp at hj
  | cons t rest ih =>
    cases j with
    | zero =>
      have h1 : ¬ i < period := by omega
      have h2 : i = period := by omega
      simp [atrLoop, h1, h2]
    | succ j =>
      have h1 : i < period := by omega
      simp only [atrLoop, if_pos h1, List.get?_cons_succ]
      rw [ih (i + 1) (s + t) p j (by simpa using hj) (by omega)]
      simp only [List.take_succ_cons, List.sum_cons]
      congr 3
      ring

/-- Claim C3 (amended): for period ≥ 1 and input longer than the period,
`calculateATR` is the `NaN` sentinel at every index below `period` and
numeric from `period` on, and the value at index `period` is the **sum**
of the true ranges at indices 0 through `period` inclusive **divided by
`period`** — `period + 1` true ranges enter the sum, so this is not their
simple mean. -/
theorem C3_atr_shape (klines : List Kline) (period : ℕ) (hp : 1 ≤ period)
    (hlen : period < klines.length) :
    (∀ j, j < period → (calculateATR klines period).get? j = some none) ∧
    (∀ j, period ≤ j → j < klines.length →
      ∃ q, (calculateATR klines period).get? j = some (some q)) ∧
    (calculateATR klines period).get? period =
      some (some (((trueRanges klines).take (period + 1)).sum / (period : ℚ))) := by
  have htr : (trueRanges klines).length = klines.length := trueRanges_length klines
  refine ⟨fun j hj => ?_, fun j hj1 hj2 => ?_, ?_⟩
  · exact atrLoop_get_none period (trueRanges klines) 0 0 0 j (by omega) (by omega)
  · exact atrLoop_get_isSome period (trueRanges klines) 0 0 0 j (by omega) (by omega)
  · have := atrLoop_get_seed period (trueRanges klines) 0 0 0 period (by omega) (by omega)
    rw [calculateATR, this, zero_add]

/-- Witness for C3 on `atrKlines` with period 1. -/
theorem C3_atr_shape_witness :
    1 ≤ 1 ∧ 1 < atrKlines.length ∧
    ((∀ j, j < 1 → (calculateATR atrKlines 1).get? j = some none) ∧
     (∀ j, 1 ≤ j → j < atrKlines.length →
       ∃ q, (calculateATR atrKlines 1).get? j = some (some q)) ∧
     (calculateATR atrKlines 1).get? 1 =
       some (some (((trueRanges atrKlines).take 2).sum / ((1 : ℕ) : ℚ)))) :=
  ⟨le_refl 1, by decide, C3_atr_shape atrKlines 1 (le_refl 1) (by decide)⟩

/-- Claim C3 as stated is false: on `atrKlines` with period 1 the true
ranges are 2 and 3, the code returns `ATR[1] = (2 + 3) / 1 = 5`, but the
simple mean of the true ranges at indices 0 through 1 inclusive is
`5 / 2`. -/
theorem C3_atr_seed_not_mean :
    (calculateATR atrKlines 1).get? 1 = some (some 5) ∧
    ((trueRanges atrKlines).take 2).sum / ((2 : ℕ) : ℚ) = 5 / 2 ∧
    (5 : ℚ) ≠ 5 / 2 :=
  ⟨by decide, by decide, by norm_num⟩

/-! ## Claim C9 -/

theorem emaLoop_length (k prev : ℚ) (xs : List ℚ) :
    (emaLoop k prev xs).length = xs.length := by
  induction xs generalizing prev with
  | nil => rfl
  | cons x t ih => simp [emaLoop, ih]

theorem calculateEMA_length (data : List ℚ) (period : ℕ) :
    (calculateEMA data period).length = data.length := by
  cases data with
  | nil => rfl
  | cons x xs => simp [calculateEMA, emaLoop_length]

theorem emaLoop_getD (k : ℚ) (xs : List ℚ) (prev : ℚ) (j : ℕ) (hj : j < xs.length) :
    (emaLoop k prev xs).getD j 0 =
      xs.getD j 0 * k +
        (if j = 0 then prev else (emaLoop k prev xs).getD (j - 1) 0) * (1 - k) := by
  induction xs generalizing prev j with
  | nil => simp at hj
  | cons x t ih =>
    cases j with
    | zero => simp [emaLoop]
    | succ j =>
      have hj2 : j < t.length := by simpa using hj
      simp only [emaLoop, List.getD_cons_succ]
      rw [ih (x * k + prev * (1 - k)) j hj2]
      cases j with
      | zero => simp [emaLoop]
      | succ j => simp [emaLoop]

/-- Claim C9: for every non-empty price list and period ≥ 1,
`calculateEMA` has the input's length, starts at the first input value,
and satisfies `e[i] = price[i] * k + e[i-1] * (1 - k)` with
`k = 2 / (period + 1)` at every positive index (no sentinel values: the
output is a plain list of rationals). -/
theorem C9_ema_recurrence (data : List ℚ) (period : ℕ) (hne : data ≠ [])
    (hp : 1 ≤ period) :
    (calculateEMA data period).length = data.length ∧
    (calculateEMA data period).head? = data.head? ∧
    ∀ i, 0 < i → i < data.length →
      (calculateEMA data period).getD i 0 =
        data.getD i 0 * (2 / ((period : ℚ) + 1)) +
          (calculateEMA data period).getD (i - 1) 0 * (1 - 2 / ((period : ℚ) + 1)) := by
  cases data with
  | nil => exact absurd rfl hne
  | cons x xs =>
    refine ⟨calculateEMA_length _ _, by simp [calculateEMA], ?_⟩
    intro i h0 hlen
    cases i with
    | zero => omega
    | succ i =>
      have hi : i < xs.length := by simpa using hlen
      simp only [calculateEMA, List.getD_cons_succ]
      rw [emaLoop_getD _ xs x i hi]
      cases i with
      | zero => simp
      | succ i => simp

/-- Witness for C9 on `[1, 4]` with period 1 (`k = 1`). -/
theorem C9_ema_recurrence_witness :
    ([(1 : ℚ), 4] ≠ []) ∧ 1 ≤ 1 ∧
    ((calculateEMA [(1 : ℚ), 4] 1).length = ([(1 : ℚ), 4] : List ℚ).length ∧
     (calculateEMA [(1 : ℚ), 4] 1).head? = ([(1 : ℚ), 4] : List ℚ).head? ∧
     ∀ i, 0 < i → i < ([(1 : ℚ), 4] : List ℚ).length →
       (calculateEMA [(1 : ℚ), 4] 1).getD i 0 =
         ([(1 : ℚ), 4] : List ℚ).getD i 0 * (2 / ((1 : ℕ) + 1 : ℚ)) +
           (calculateEMA [(1 : ℚ), 4] 1).getD (i - 1) 0 * (1 - 2 / ((1 : ℕ) + 1 : ℚ))) :=
  ⟨by decide, le_refl 1, C9_ema_recurrence [1, 4] 1 (by decide) (le_refl 1)⟩

/-! ## Claim C10 -/

theorem deltas_sum_telescopes (l : List ℚ) (h : l ≠ []) :
    (deltas l).sum = l.getD (l.length - 1) 0 - l.getD 0 0 := by
  induction l with
  | nil => exact absurd rfl h
  | cons a t ih =>
    cases t with
    | nil => simp [deltas]
    | cons b t2 =>
      have ht : (deltas (b :: t2)).sum =
          (b :: t2).getD ((b :: t2).length - 1) 0 - (b :: t2).getD 0 0 := ih (by simp)
      simp only [deltas, List.sum_cons, ht, List.getD_cons_zero]
      have hlen : (a :: b :: t2).length - 1 = ((b :: t2).length - 1) + 1 := by
        simp
      rw [hlen, List.getD_cons_succ]
      ring

/-- Claim C10: for a series of length `n ≥ 2` and window `w ≥ 1`,
`getSeriesTrend` equals `(series[n-1] - series[n-1-w']) / w'` with
`w' = min w (n-1)`: the summed signed deltas telescope, so only the two
endpoint values of the trailing window matter. -/
theorem C10_trend_telescopes (s : List ℚ) (w : ℕ) (h2 : 2 ≤ s.length) (hw : 1 ≤ w) :
    getSeriesTrend s w =
      (s.getD (s.length - 1) 0 - s.getD (s.length - 1 - min w (s.length - 1)) 0) /
        ((min w (s.length - 1) : ℕ) : ℚ) := by
  rw [getSeriesTrend, if_neg (by omega)]
  rw [Nat.min_comm w (s.length - 1)]
  set w2 := min (s.length - 1) w with hw2
  have hwle : w2 + 1 ≤ s.length := by omega
  have hrecl : (s.drop (s.length - (w2 + 1))).length = w2 + 1 := by
    rw [List.length_drop]; omega
  have hne : s.drop (s.length - (w2 + 1)) ≠ [] := by
    intro hemp; rw [hemp] at hrecl; simp at hrecl
  show (deltas (s.drop (s.length - (w2 + 1)))).sum / ((w2 : ℕ) : ℚ) =
    (s.getD (s.length - 1) 0 - s.getD (s.length - 1 - w2) 0) / ((w2 : ℕ) : ℚ)
  rw [deltas_sum_telescopes _ hne]
  rw [hrecl]
  have e1 : (s.drop (s.length - (w2 + 1))).getD (w2 + 1 - 1) 0 = s.getD (s.length - 1) 0 := by
    rw [List.getD_eq_get?, List.getD_eq_get?, List.get?_drop]
    congr 2
    omega
  have e2 : (s.drop (s.length - (w2 + 1))).getD 0 0 = s.getD (s.length - 1 - w2) 0 := by
    rw [List.getD_eq_get?, List.getD_eq_get?, List.get?_drop]
    congr 2
    omega
  rw [e1, e2]

/-- Witness for C10 on `[1, 2, 3, 4]` with window 2 (trend 1). -/
theorem C10_trend_telescopes_witness :
    2 ≤ ([(1 : ℚ), 2, 3, 4] : List ℚ).length ∧ 1 ≤ 2 ∧
    getSeriesTrend [(1 : ℚ), 2, 3, 4] 2 =
      (([(1 : ℚ), 2, 3, 4] : List ℚ).getD (([(1 : ℚ), 2, 3, 4] : List ℚ).length - 1) 0 -
          ([(1 : ℚ), 2, 3, 4] : List ℚ).getD
            (([(1 : ℚ), 2, 3, 4] : List ℚ).length - 1 -
              min 2 (([(1 : ℚ), 2, 3, 4] : List ℚ).length - 1)) 0) /
        ((min 2 (([(1 : ℚ), 2, 3, 4] : List ℚ).length - 1) : ℕ) : ℚ) :=
  ⟨by decide, by decide, C10_trend_telescopes [1, 2, 3, 4] 2 (by decide) (by decide)⟩

/-! ## Claims C2 and C6: lengths and the acceptance guard -/

theorem deltas_length (l : List ℚ) : (deltas l).length = l.length - 1 := by
  induction l with
  | nil => rfl
  | cons a t ih =>
    cases t with
    | nil => rfl
    | cons b t2 =>
      simp only [deltas, List.length_cons] at ih ⊢
      omega

theorem rsiLoop_length (period : ℕ) (g l : JsNum) (cs : List ℚ) :
    (rsiLoop period g l cs).length = cs.length := by
  induction cs generalizing g l with
  | nil => rfl
  | cons c t ih => simp [rsiLoop, ih]

theorem rsiCore_length (prices : List ℚ) (period : ℕ) (h : period + 1 ≤ prices.length) :
    (rsiCore prices period).length = prices.length - period := by
  simp only [rsiCore, List.length_cons, rsiLoop_length, List.length_drop, deltas_length]
  omega

theorem calculateRSI_some (prices : List ℚ) (period : ℕ) (h : period + 1 ≤ prices.length) :
    calculateRSI prices period = some (rsiCore prices period) := by
  rw [calculateRSI, if_neg (by omega)]

theorem calculateMACD_lengths (prices : List ℚ) (f s g : ℕ) :
    (calculateMACD prices f s g).1.length = prices.length ∧
    (calculateMACD prices f s g).2.1.length = prices.length ∧
    (calculateMACD prices f s g).2.2.length = prices.length := by
  refine ⟨?_, ?_, ?_⟩ <;> simp [calculateMACD]

theorem mfiStep_out_length (period : ℕ) (prev cur : Kline) (i : ℕ) (s : MfiState) :
    (mfiStep period prev cur i s).out.length = s.out.length := by
  simp only [mfiStep]
  split_ifs <;> simp [List.length_set]

theorem mfiLoop_out_length (period : ℕ) (rest : List Kline) (prev : Kline) (i : ℕ)
    (s : MfiState) : (mfiLoop period prev rest i s).out.length = s.out.length := by
  induction rest generalizing prev i s with
  | nil => rfl
  | cons k ks ih => rw [mfiLoop, ih, mfiStep_out_length]

theorem calculateMFI_length (klines : List Kline) (period : ℕ) :
    (calculateMFI klines period).length = klines.length := by
  rw [calculateMFI.eq_def]
  split_ifs with h
  · simp
  · cases klines with
    | nil => rfl
    | cons k ks => simp [mfiLoop_out_length]

theorem calculateATR_length (klines : List Kline) (period : ℕ) :
    (calculateATR klines period).length = klines.length := by
  rw [calculateATR, atrLoop_length, trueRanges_length]

/-- Under the kline-count guard, `calculateIndicators` succeeds and its
result is the record of its definition, spelled out. -/
theorem calculateIndicators_eq (klines : List Kline) (params : IndicatorParams)
    (h : maxPeriodRequired params < klines.length) :
    calculateIndicators klines params = .ok
      { klines := klines
        closePrices := klines.map (·.close)
        volumes := klines.map (·.volume)
        ultraSlowEma := calculateEMA (klines.map (·.close)) params.ultraSlowEmaPeriod
        superSlowEma := calculateEMA (klines.map (·.close)) params.superSlowEmaPeriod
        slowEma := calculateEMA (klines.map (·.close)) params.slowEmaPeriod
        fastEma := calculateEMA (klines.map (·.close)) params.fastEmaPeriod
        slowRsi := rsiCore (klines.map (·.close)) params.slowRsiPeriod
        fastRsi := rsiCore (klines.map (·.close)) params.fastRsiPeriod
        macd := (calculateMACD (klines.map (·.close)) 12 26 9).1
        signal := (calculateMACD (klines.map (·.close)) 12 26 9).2.1
        histogram := (calculateMACD (klines.map (·.close)) 12 26 9).2.2
        mfi := calculateMFI klines params.mfiPeriod
        atr := calculateATR klines params.atrPeriod
        minPrice := arrMin (klines.map (·.low))
        maxPrice := arrMax (klines.map (·.high))
        minVolume := arrMin (klines.map (·.volume))
        maxVolume := arrMax (klines.map (·.volume))
        minMACD := arrMin ((calculateMACD (klines.map (·.close)) 12 26 9).1.filterMap id)
        maxMACD := arrMax ((calculateMACD (klines.map (·.close)) 12 26 9).1.filterMap id)
        minSignal := arrMin ((calculateMACD (klines.map (·.close)) 12 26 9).2.1.filterMap id)
        maxSignal := arrMax ((calculateMACD (klines.map (·.close)) 12 26 9).2.1.filterMap id)
        minHistogram := arrMin ((calculateMACD (klines.map (·.close)) 12 26 9).2.2.filterMap id)
        maxHistogram := arrMax ((calculateMACD (klines.map (·.close)) 12 26 9).2.2.filterMap id) } := by
  have hs : calculateRSI (klines.map (·.close)) params.slowRsiPeriod =
      some (rsiCore (klines.map (·.close)) params.slowRsiPeriod) := by
    apply calculateRSI_some
    simp only [List.length_map]
    have : params.slowRsiPeriod + 1 ≤ maxPeriodRequired params := by
      unfold maxPeriodRequired; omega
    omega
  have hf : calculateRSI (klines.map (·.close)) params.fastRsiPeriod =
      some (rsiCore (klines.map (·.close)) params.fastRsiPeriod) := by
    apply calculateRSI_some
    simp only [List.length_map]
    have : params.fastRsiPeriod + 1 ≤ maxPeriodRequired params := by
      unfold maxPeriodRequired; omega
    omega
  rw [calculateIndicators, if_neg (by omega)]
  simp only [hs, hf]

/-- Claim C6: `calculateIndicators` returns the insufficient-data error
exactly when the kline count does not exceed `maxPeriodRequired`; the
guard is the first statement of the function, so a failing call returns
the error alone and no indicator value (the success case is the complete
record, the failure case carries nothing). -/
theorem C6_insufficient_data_guard (klines : List Kline) (params : IndicatorParams) :
    calculateIndicators klines params = .error "Not enough klines to compute indicators." ↔
      klines.length ≤ maxPeriodRequired params := by
  constructor
  · intro h
    by_contra hgt
    rw [calculateIndicators_eq klines params (by omega)] at h
    exact Except.noConfusion h
  · intro h
    rw [calculateIndicators, if_pos h]

/-- Claim C2 (amended): on an accepted batch the four EMAs, MACD, signal,
histogram, MFI and ATR all have the input count's length, while the two
RSI series have length `count - period` (their period's worth of leading
values is missing, as §4.3 of the spec records). -/
theorem C2_series_lengths (klines : List Kline) (params : IndicatorParams)
    (h : maxPeriodRequired params < klines.length) :
    (calculateIndicators klines params).map (fun r =>
        [r.ultraSlowEma.length, r.superSlowEma.length, r.slowEma.length, r.fastEma.length,
         r.macd.length, r.signal.length, r.histogram.length, r.mfi.length, r.atr.length]) =
      .ok (List.replicate 9 klines.length) ∧
    (calculateIndicators klines params).map (fun r => (r.slowRsi.length, r.fastRsi.length)) =
      .ok (klines.length - params.slowRsiPeriod, klines.length - params.fastRsiPeriod) := by
  have hs : params.slowRsiPeriod + 1 ≤ maxPeriodRequired params := by
    unfold maxPeriodRequired; omega
  have hff : params.fastRsiPeriod + 1 ≤ maxPeriodRequired params := by
    unfold maxPeriodRequired; omega
  rw [calculateIndicators_eq klines params h]
  constructor
  · simp only [Except.map, calculateEMA_length, List.length_map,
      (calculateMACD_lengths (klines.map (·.close)) 12 26 9).1,
      (calculateMACD_lengths (klines.map (·.close)) 12 26 9).2.1,
      (calculateMACD_lengths (klines.map (·.close)) 12 26 9).2.2,
      calculateMFI_length, calculateATR_length]
    rfl
  · simp only [Except.map]
    rw [rsiCore_length _ _ (by simp only [List.length_map]; omega),
      rsiCore_length _ _ (by simp only [List.length_map]; omega)]
    simp [List.length_map]

/-- Witness for C2 on the four-kline `sampleKlines` with all periods 2:
the nine window-aligned series have length 4 and both RSI series have
length 2. -/
theorem C2_series_lengths_witness :
    maxPeriodRequired sampleParams < sampleKlines.length ∧
    ((calculateIndicators sampleKlines sampleParams).map (fun r =>
        [r.ultraSlowEma.length, r.superSlowEma.length, r.slowEma.length, r.fastEma.length,
         r.macd.length, r.signal.length, r.histogram.length, r.mfi.length, r.atr.length]) =
      .ok (List.replicate 9 sampleKlines.length) ∧
     (calculateIndicators sampleKlines sampleParams).map
        (fun r => (r.slowRsi.length, r.fastRsi.length)) =
      .ok (sampleKlines.length - sampleParams.slowRsiPeriod,
           sampleKlines.length - sampleParams.fastRsiPeriod)) :=
  ⟨by decide, C2_series_lengths sampleKlines sampleParams (by decide)⟩

/-- Claim C2 as stated is false: the accepted batch `sampleKlines` has 4
candles, but the `slowRsi` series of the result has only 2 entries. -/
theorem C2_rsi_length_mismatch :
    ((calculateIndicators sampleKlines sampleParams).toOption.map fun r => r.slowRsi.length) =
      some 2 ∧ sampleKlines.length = 4 ∧ (2 : ℕ) ≠ 4 :=
  ⟨by decide, by decide, by decide⟩

/-! ## Claim C7 -/

theorem mfiLoop_out_get_lt (period : ℕ) (rest : List Kline) (prev : Kline) (i : ℕ)
    (s : MfiState) (j : ℕ) (hj : j < i) :
    (mfiLoop period prev rest i s).out.get? j = s.out.get? j := by
  induction rest generalizing prev i s with
  | nil => rfl
  | cons k ks ih =>
    rw [mfiLoop, ih k (i + 1) _ (by omega)]
    show (mfiStep period prev k i s).out.get? j = s.out.get? j
    simp only [mfiStep]
    split_ifs <;> first
      | exact List.get?_set_ne _ _ (by omega)
      | rfl

theorem mfiLoop_out_spec (period : ℕ) (rest : List Kline) (prev : Kline) (i : ℕ)
    (s : MfiState) (hout : s.out.length = i + rest.length) (j : ℕ) (hj : j < rest.length)
    (hper : period ≤ i + j) :
    ∃ st, (mfiStates period prev rest i s).get? j = some st ∧
      (mfiLoop period prev rest i s).out.get? (i + j) = some (some (mfiValue st.pos st.neg)) := by
  induction rest generalizing prev i s j with
  | nil => simp at hj
  | cons k ks ih =>
    cases j with
    | zero =>
      refine ⟨mfiStep period prev k i s, by simp [mfiStates], ?_⟩
      rw [mfiLoop]
      show (mfiLoop period k ks (i + 1) (mfiStep period prev k i s)).out.get? i =
        some (some (mfiValue (mfiStep period prev k i s).pos (mfiStep period prev k i s).neg))
      rw [mfiLoop_out_get_lt period ks k (i + 1) _ i (by omega)]
      have hip : period ≤ i := by simpa using hper
      have hilen : i < s.out.length := by simp at hout; omega
      show (mfiStep period prev k i s).out.get? i = _
      simp only [mfiStep, if_pos hip]
      rw [List.get?_set_eq_of_lt _ hilen]
    | succ j =>
      have hout2 : (mfiStep period prev k i s).out.length = (i + 1) + ks.length := by
        rw [mfiStep_out_length]
        simp at hout
        omega
      obtain ⟨st, h1, h2⟩ := ih k (i + 1) (mfiStep period prev k i s) hout2 j
        (by simpa using hj) (by omega)
      refine ⟨st, ?_, ?_⟩
      · simpa [mfiStates] using h1
      · rw [mfiLoop]
        have he : i + (j + 1) = (i + 1) + j := by omega
        rw [he]
        exact h2

/-- Claim C7 (amended, requiring period ≥ 1): on an input longer than the
period, `calculateMFI` holds a written value at every index
`period ≤ i < count`, namely `mfiValue` of the queues after step `i` of
the scan: exactly 100 when the negative-flow queue sums to 0 (the guarded
zero-division policy — no NaN or Infinity from that branch), and
otherwise the JavaScript evaluation of `100 - 100/(1 + posSum/negSum)`:
the exact rational whenever `1 + posSum/negSum ≠ 0`, and `-Infinity` when
the money ratio is exactly -1, which is reachable only through negative
money flows (e.g. negative volumes). -/
theorem C7_mfi_values (klines : List Kline) (period : ℕ) (hp : 1 ≤ period)
    (hlen : period < klines.length) (i : ℕ) (hi1 : period ≤ i) (hi2 : i < klines.length) :
    ∃ st, (mfiStatesOf klines period).get? (i - 1) = some st ∧
      (calculateMFI klines period).get? i = some (some (mfiValue st.pos st.neg)) ∧
      (st.neg.sum = 0 → mfiValue st.pos st.neg = .fin 100) ∧
      (st.neg.sum ≠ 0 → 1 + st.pos.sum / st.neg.sum ≠ 0 →
        mfiValue st.pos st.neg = .fin (100 - 100 / (1 + st.pos.sum / st.neg.sum))) ∧
      (st.neg.sum ≠ 0 → 1 + st.pos.sum / st.neg.sum = 0 →
        mfiValue st.pos st.neg = JsNum.ninf) := by
  cases klines with
  | nil => simp at hlen
  | cons k ks =>
    have hks : ks.length + 1 = (k :: ks).length := by simp
    obtain ⟨st, h1, h2⟩ := mfiLoop_out_spec period ks k 1
      ⟨[], [], List.replicate (ks.length + 1) none⟩ (by simp [Nat.add_comm]) (i - 1)
      (by simp at hi2; omega) (by omega)
    refine ⟨st, ?_, ?_, ?_, ?_, ?_⟩
    · simpa [mfiStatesOf] using h1
    · rw [calculateMFI.eq_def, if_neg (by simp; omega)]
      have he : 1 + (i - 1) = i := by omega
      rw [he] at h2
      exact h2
    · intro hz; simp [mfiValue, hz]
    · intro hz hr
      unfold mfiValue
      rw [if_pos hz]
      simp [JsNum.div, JsNum.add, JsNum.sub, JsNum.neg, hz, hr, sub_eq_add_neg]
    · intro hz hr
      unfold mfiValue
      rw [if_pos hz]
      simp [JsNum.div, JsNum.add, JsNum.sub, JsNum.neg, hz, hr]

/-- Witness for C7 on `sampleKlines` with period 2 at index 2: the
typical prices tie throughout, both queues stay empty, and the output is
the zero-negative-flow policy value 100. -/
theorem C7_mfi_values_witness :
    1 ≤ 2 ∧ 2 < sampleKlines.length ∧ 2 ≤ 2 ∧
    (∃ st, (mfiStatesOf sampleKlines 2).get? (2 - 1) = some st ∧
      (calculateMFI sampleKlines 2).get? 2 = some (some (mfiValue st.pos st.neg)) ∧
      (st.neg.sum = 0 → mfiValue st.pos st.neg = .fin 100) ∧
      (st.neg.sum ≠ 0 → 1 + st.pos.sum / st.neg.sum ≠ 0 →
        mfiValue st.pos st.neg = .fin (100 - 100 / (1 + st.pos.sum / st.neg.sum))) ∧
      (st.neg.sum ≠ 0 → 1 + st.pos.sum / st.neg.sum = 0 →
        mfiValue st.pos st.neg = JsNum.ninf)) :=
  ⟨by decide, by decide, by decide,
    C7_mfi_values sampleKlines 2 (by decide) (by decide) 2 (by decide) (by decide)⟩

/-! ## Claim C5: range lemmas -/

theorem foldl_min_le_init (xs : List ℚ) (a : ℚ) : xs.foldl min a ≤ a := by
  induction xs generalizing a with
  | nil => simp
  | cons x t ih => exact le_trans (ih (min a x)) (min_le_left a x)

theorem foldl_min_le_mem (xs : List ℚ) (a x : ℚ) (hx : x ∈ xs) : xs.foldl min a ≤ x := by
  induction xs generalizing a with
  | nil => simp at hx
  | cons y t ih =>
    rcases List.mem_cons.mp hx with rfl | hmem
    · exact le_trans (foldl_min_le_init t (min a x)) (min_le_right a x)
    · exact ih (min a y) hmem

theorem arrMin_le (l : List ℚ) (x : ℚ) (hx : x ∈ l) : arrMin l ≤ x := by
  cases l with
  | nil => simp at hx
  | cons y ys =>
    rcases List.mem_cons.mp hx with rfl | hmem
    · exact foldl_min_le_init ys x
    · exact foldl_min_le_mem ys y x hmem

theorem le_foldl_max_init (xs : List ℚ) (a : ℚ) : a ≤ xs.foldl max a := by
  induction xs generalizing a with
  | nil => simp
  | cons x t ih => exact le_trans (le_max_left a x) (ih (max a x))

theorem mem_le_foldl_max (xs : List ℚ) (a x : ℚ) (hx : x ∈ xs) : x ≤ xs.foldl max a := by
  induction xs generalizing a with
  | nil => simp at hx
  | cons y t ih =>
    rcases List.mem_cons.mp hx with rfl | hmem
    · exact le_trans (le_max_right a x) (le_foldl_max_init t (max a x))
    · exact ih (max a y) hmem

theorem le_arrMax (l : List ℚ) (x : ℚ) (hx : x ∈ l) : x ≤ arrMax l := by
  cases l with
  | nil => simp at hx
  | cons y ys =>
    rcases List.mem_cons.mp hx with rfl | hmem
    · exact le_foldl_max_init ys x
    · exact mem_le_foldl_max ys y x hmem

theorem normalize_range (v mn mx : ℚ) (h1 : mn ≤ v) (h2 : v ≤ mx) :
    -1 ≤ normalize v mn mx ∧ normalize v mn mx ≤ 1 := by
  unfold normalize
  split_ifs with h
  · norm_num
  · have hlt : mn < mx := lt_of_le_of_ne (le_trans h1 h2) fun e => h e.symm
    have hpos : 0 < mx - mn := by linarith
    have hd0 : 0 ≤ (v - mn) / (mx - mn) := div_nonneg (by linarith) hpos.le
    have hd1 : (v - mn) / (mx - mn) ≤ 1 := (div_le_one hpos).mpr (by linarith)
    constructor <;> linarith

theorem emaLoop_bounds (k lo hi : ℚ) (hk0 : 0 < k) (hk1 : k ≤ 1) (xs : List ℚ)
    (prev : ℚ) (hprev : lo ≤ prev ∧ prev ≤ hi)
    (hxs : ∀ x ∈ xs, lo ≤ x ∧ x ≤ hi) :
    ∀ y ∈ emaLoop k prev xs, lo ≤ y ∧ y ≤ hi := by
  induction xs generalizing prev with
  | nil => simp [emaLoop]
  | cons x t ih =>
    intro y hy
    rw [emaLoop] at hy
    obtain ⟨hx1, hx2⟩ := hxs x (by simp)
    have hnxt : lo ≤ x * k + prev * (1 - k) ∧ x * k + prev * (1 - k) ≤ hi := by
      constructor
      · nlinarith [mul_nonneg (by linarith : (0 : ℚ) ≤ x - lo) hk0.le,
          mul_nonneg (by linarith : (0 : ℚ) ≤ prev - lo) (by linarith : (0 : ℚ) ≤ 1 - k)]
      · nlinarith [mul_nonneg (by linarith : (0 : ℚ) ≤ hi - x) hk0.le,
          mul_nonneg (by linarith : (0 : ℚ) ≤ hi - prev) (by linarith : (0 : ℚ) ≤ 1 - k)]
    rcases List.mem_cons.mp hy with rfl | hmem
    · exact hnxt
    · exact ih (x * k + prev * (1 - k)) hnxt (fun z hz => hxs z (by simp [hz])) y hmem

theorem calculateEMA_bounds (data : List ℚ) (period : ℕ) (hp : 1 ≤ period) (lo hi : ℚ)
    (hd : ∀ x ∈ data, lo ≤ x ∧ x ≤ hi) :
    ∀ y ∈ calculateEMA data period, lo ≤ y ∧ y ≤ hi := by
  cases data with
  | nil => simp [calculateEMA]
  | cons x xs =>
    have hp1 : (1 : ℚ) ≤ (period : ℚ) := by exact_mod_cast hp
    have hk0 : 0 < 2 / ((period : ℚ) + 1) := by positivity
    have hk1 : 2 / ((period : ℚ) + 1) ≤ 1 := by
      rw [div_le_one (by positivity)]
      linarith
    intro y hy
    rw [calculateEMA] at hy
    rcases List.mem_cons.mp hy with rfl | hmem
    · exact hd y (by simp)
    · exact emaLoop_bounds _ lo hi hk0 hk1 xs x (hd x (by simp))
        (fun z hz => hd z (by simp [hz])) y hmem

theorem mfiValue_range (pos neg : List ℚ) (hp : ∀ x ∈ pos, 0 ≤ x)
    (hn : ∀ x ∈ neg, 0 ≤ x) :
    ∃ m, mfiValue pos neg = .fin m ∧ 0 ≤ m ∧ m ≤ 100 := by
  unfold mfiValue
  split_ifs with h
  · have hns : 0 < neg.sum := lt_of_le_of_ne (List.sum_nonneg hn) (Ne.symm h)
    have hps : 0 ≤ pos.sum := List.sum_nonneg hp
    have hr : 0 ≤ pos.sum / neg.sum := div_nonneg hps hns.le
    have h1 : (0 : ℚ) < 1 + pos.sum / neg.sum := by linarith
    have hle : 100 / (1 + pos.sum / neg.sum) ≤ 100 := by
      rw [div_le_iff h1]; nlinarith
    have hgt : 0 < 100 / (1 + pos.sum / neg.sum) := by positivity
    refine ⟨100 - 100 / (1 + pos.sum / neg.sum), ?_, by linarith, by linarith⟩
    simp [JsNum.div, JsNum.add, JsNum.sub, JsNum.neg, h, h1.ne', sub_eq_add_neg]
  · exact ⟨100, rfl, by norm_num, by norm_num⟩

theorem mfiStep_queues_nonneg (period : ℕ) (prev cur : Kline) (i : ℕ) (s : MfiState)
    (hcur : 0 ≤ typicalPrice cur * cur.volume)
    (hp : ∀ x ∈ s.pos, 0 ≤ x) (hn : ∀ x ∈ s.neg, 0 ≤ x) :
    (∀ x ∈ (mfiStep period prev cur i s).pos, 0 ≤ x) ∧
    (∀ x ∈ (mfiStep period prev cur i s).neg, 0 ≤ x) := by
  simp only [mfiStep]
  split_ifs <;> constructor <;> intro x hx <;>
    first
      | (rcases List.mem_append.mp hx with hmem | hmem
         · exact hp x hmem
         · simp at hmem; subst hmem; exact hcur)
      | (rcases List.mem_append.mp hx with hmem | hmem
         · exact hn x hmem
         · simp at hmem; subst hmem; exact hcur)
      | exact hp x (List.mem_of_mem_tail hx)
      | exact hn x (List.mem_of_mem_tail hx)
      | exact hp x hx
      | exact hn x hx

theorem mfiStep_out_cases (period : ℕ) (prev cur : Kline) (i : ℕ) (s : MfiState) :
    (mfiStep period prev cur i s).out = s.out ∨
    (mfiStep period prev cur i s).out =
      s.out.set i
        (some (mfiValue (mfiStep period prev cur i s).pos (mfiStep period prev cur i s).neg)) := by
  simp only [mfiStep]
  split_ifs <;> simp

theorem mfiLoop_out_range (period : ℕ) (rest : List Kline) (prev : Kline) (i : ℕ)
    (s : MfiState) (hrest : ∀ k ∈ rest, 0 ≤ typicalPrice k * k.volume)
    (hp : ∀ x ∈ s.pos, 0 ≤ x) (hn : ∀ x ∈ s.neg, 0 ≤ x)
    (hout : ∀ o ∈ s.out, o = none ∨ ∃ m, o = some (.fin m) ∧ 0 ≤ m ∧ m ≤ 100) :
    ∀ o ∈ (mfiLoop period prev rest i s).out,
      o = none ∨ ∃ m, o = some (.fin m) ∧ 0 ≤ m ∧ m ≤ 100 := by
  induction rest generalizing prev i s with
  | nil => exact hout
  | cons k ks ih =>
    rw [mfiLoop]
    have hcur : 0 ≤ typicalPrice k * k.volume := hrest k (by simp)
    obtain ⟨hp2, hn2⟩ := mfiStep_queues_nonneg period prev k i s hcur hp hn
    refine ih k (i + 1) (mfiStep period prev k i s)
      (fun z hz => hrest z (by simp [hz])) hp2 hn2 ?_
    intro o ho
    rcases mfiStep_out_cases period prev k i s with hcase | hcase
    · rw [hcase] at ho
      exact hout o ho
    · rw [hcase] at ho
      rcases List.mem_or_eq_of_mem_set ho with hmem | rfl
      · exact hout o hmem
      · obtain ⟨m, hmeq, h0, h100⟩ := mfiValue_range _ _ hp2 hn2
        exact Or.inr ⟨m, by rw [hmeq], h0, h100⟩

theorem calculateMFI_entries_range (klines : List Kline) (period : ℕ)
    (hk : ∀ k ∈ klines, 0 ≤ typicalPrice k * k.volume) :
    ∀ o ∈ calculateMFI klines period,
      o = none ∨ ∃ m, o = some (.fin m) ∧ 0 ≤ m ∧ m ≤ 100 := by
  rw [calculateMFI.eq_def]
  split_ifs with h
  · exact fun o ho => Or.inl (List.eq_of_mem_replicate ho)
  · cases klines with
    | nil => simp
    | cons k ks =>
      exact mfiLoop_out_range period ks k 1 _
        (fun z hz => hk z (by simp [hz])) (by simp) (by simp)
        (fun o ho => Or.inl (List.eq_of_mem_replicate ho))

theorem snd_mem_of_mem_enumFrom {α : Type} (l : List α) (n : ℕ) (p : ℕ × α)
    (h : p ∈ l.enumFrom n) : p.2 ∈ l := by
  induction l generalizing n with
  | nil => simp [List.enumFrom] at h
  | cons x t ih =>
    rw [List.enumFrom] at h
    rcases List.mem_cons.mp h with rfl | hmem
    · simp
    · exact List.mem_cons_of_mem x (ih (n + 1) hmem)

theorem emaSlot_bounded (inds : Indicators) (i : ℕ) (l : List ℚ)
    (hb : ∀ y ∈ l, inds.minPrice ≤ y ∧ y ≤ inds.maxPrice) :
    ∃ q, emaSlot inds i l = some q ∧ -1 ≤ q ∧ q ≤ 1 := by
  rw [emaSlot]
  cases hm : l.get? i with
  | none => exact ⟨0, rfl, by norm_num, by norm_num⟩
  | some v =>
    obtain ⟨hb1, hb2⟩ := hb v (List.get?_mem hm)
    obtain ⟨h1, h2⟩ := normalize_range v inds.minPrice inds.maxPrice hb1 hb2
    exact ⟨_, rfl, h1, h2⟩

theorem nullSlot_bounded (i : ℕ) (l : List (Option ℚ)) (mn mx : ℚ)
    (hmn : mn = arrMin (l.filterMap id)) (hmx : mx = arrMax (l.filterMap id)) :
    ∃ q, nullSlot i l mn mx = some q ∧ -1 ≤ q ∧ q ≤ 1 := by
  rw [nullSlot]
  cases hm : l.get? i with
  | none => exact ⟨0, rfl, by norm_num, by norm_num⟩
  | some ov =>
    cases ov with
    | none => exact ⟨0, rfl, by norm_num, by norm_num⟩
    | some v =>
      have hvmem : v ∈ l.filterMap id :=
        List.mem_filterMap.mpr ⟨some v, List.get?_mem hm, rfl⟩
      obtain ⟨h1, h2⟩ := normalize_range v mn mx (hmn ▸ arrMin_le _ _ hvmem)
        (hmx ▸ le_arrMax _ _ hvmem)
      exact ⟨_, rfl, h1, h2⟩

theorem mfiSlot_bounded (inds : Indicators) (i : ℕ)
    (hent : ∀ o ∈ inds.mfi, o = none ∨ ∃ m, o = some (.fin m) ∧ 0 ≤ m ∧ m ≤ 100) :
    ∃ q, mfiSlot inds i = some q ∧ -1 ≤ q ∧ q ≤ 1 := by
  rw [mfiSlot]
  cases hm : inds.mfi.get? i with
  | none => exact ⟨0, rfl, by norm_num, by norm_num⟩
  | some o =>
    rcases hent o (List.get?_mem hm) with rfl | ⟨m, rfl, h0, h100⟩
    · exact ⟨0, rfl, by norm_num, by norm_num⟩
    · have hd0 : 0 ≤ m / 100 := div_nonneg h0 (by norm_num)
      have hd1 : m / 100 ≤ 1 := by rw [div_le_one (by norm_num)]; linarith
      refine ⟨m / 100, ?_, by linarith, hd1⟩
      simp [JsNum.div, JsNum.toOpt]

theorem volumeSlot_bounded (inds : Indicators) (k : Kline)
    (hv1 : inds.minVolume ≤ k.volume) (hv2 : k.volume ≤ inds.maxVolume) :
    -1 ≤ volumeSlot inds k ∧ volumeSlot inds k ≤ 1 := by
  rw [volumeSlot]
  split_ifs with h
  · norm_num
  · have hlt : inds.minVolume < inds.maxVolume := lt_of_le_of_ne (le_trans hv1 hv2) h
    have hpos : 0 < inds.maxVolume - inds.minVolume := by linarith
    have hd0 : 0 ≤ (k.volume - inds.minVolume) / (inds.maxVolume - inds.minVolume) :=
      div_nonneg (by linarith) hpos.le
    have hd1 : (k.volume - inds.minVolume) / (inds.maxVolume - inds.minVolume) ≤ 1 :=
      (div_le_one hpos).mpr (by linarith)
    constructor <;> linarith

/-- The feature-row positions that stay inside `[-1, 1]`: OHLC, volume,
the four EMAs, MACD, signal, histogram and MFI — all but the two RSI
slots (9, 10) and the ATR slot (15). -/
def boundedSlots : List ℕ := [0, 1, 2, 3, 4, 5, 6, 7, 8, 11, 12, 13, 14]

/-- Bounds for a single feature row, generic in the `Indicators` record:
every slot other than the RSI and ATR ones is finite and lies in
`[-1, 1]`, given that the row's candle and every EMA entry lie within the
price bounds, the candle's volume within the volume bounds, the
MACD-family bounds are the min/max of the corresponding non-null entries,
and every MFI entry is `null` or in `[0, 100]`. -/
theorem normalizeRow_bounded (inds : Indicators) (i : ℕ) (k : Kline)
    (hopen : inds.minPrice ≤ k.open ∧ k.open ≤ inds.maxPrice)
    (hhigh : inds.minPrice ≤ k.high ∧ k.high ≤ inds.maxPrice)
    (hlow : inds.minPrice ≤ k.low ∧ k.low ≤ inds.maxPrice)
    (hclose : inds.minPrice ≤ k.close ∧ k.close ≤ inds.maxPrice)
    (hvol : inds.minVolume ≤ k.volume ∧ k.volume ≤ inds.maxVolume)
    (hfast : ∀ y ∈ inds.fastEma, inds.minPrice ≤ y ∧ y ≤ inds.maxPrice)
    (hslow : ∀ y ∈ inds.slowEma, inds.minPrice ≤ y ∧ y ≤ inds.maxPrice)
    (hsuper : ∀ y ∈ inds.superSlowEma, inds.minPrice ≤ y ∧ y ≤ inds.maxPrice)
    (hultra : ∀ y ∈ inds.ultraSlowEma, inds.minPrice ≤ y ∧ y ≤ inds.maxPrice)
    (hmacd1 : inds.minMACD = arrMin (inds.macd.filterMap id))
    (hmacd2 : inds.maxMACD = arrMax (inds.macd.filterMap id))
    (hsig1 : inds.minSignal = arrMin (inds.signal.filterMap id))
    (hsig2 : inds.maxSignal = arrMax (inds.signal.filterMap id))
    (hhist1 : inds.minHistogram = arrMin (inds.histogram.filterMap id))
    (hhist2 : inds.maxHistogram = arrMax (inds.histogram.filterMap id))
    (hmfient : ∀ o ∈ inds.mfi, o = none ∨ ∃ m, o = some (.fin m) ∧ 0 ≤ m ∧ m ≤ 100) :
    ∀ j ∈ boundedSlots,
      ∃ q, (normalizeRow inds i k).get? j = some (some q) ∧ -1 ≤ q ∧ q ≤ 1 := by
  intro j hj
  have hget : ∀ x : Option ℚ, (∃ q, x = some q ∧ -1 ≤ q ∧ q ≤ 1) →
      ∀ y : Option (Option ℚ), y = some x →
      ∃ q, y = some (some q) ∧ -1 ≤ q ∧ q ≤ 1 := by
    rintro x ⟨q, rfl, h1, h2⟩ y rfl
    exact ⟨q, rfl, h1, h2⟩
  fin_cases hj
  · obtain ⟨h1, h2⟩ := normalize_range k.open _ _ hopen.1 hopen.2
    exact ⟨_, rfl, h1, h2⟩
  · obtain ⟨h1, h2⟩ := normalize_range k.high _ _ hhigh.1 hhigh.2
    exact ⟨_, rfl, h1, h2⟩
  · obtain ⟨h1, h2⟩ := normalize_range k.low _ _ hlow.1 hlow.2
    exact ⟨_, rfl, h1, h2⟩
  · obtain ⟨h1, h2⟩ := normalize_range k.close _ _ hclose.1 hclose.2
    exact ⟨_, rfl, h1, h2⟩
  · obtain ⟨h1, h2⟩ := volumeSlot_bounded inds k hvol.1 hvol.2
    exact ⟨_, rfl, h1, h2⟩
  · exact hget _ (emaSlot_bounded inds i inds.fastEma hfast) _ rfl
  · exact hget _ (emaSlot_bounded inds i inds.slowEma hslow) _ rfl
  · exact hget _ (emaSlot_bounded inds i inds.superSlowEma hsuper) _ rfl
  · exact hget _ (emaSlot_bounded inds i inds.ultraSlowEma hultra) _ rfl
  · exact hget _ (nullSlot_bounded i inds.macd _ _ hmacd1 hmacd2) _ rfl
  · exact hget _ (nullSlot_bounded i inds.signal _ _ hsig1 hsig2) _ rfl
  · exact hget _ (nullSlot_bounded i inds.histogram _ _ hhist1 hhist2) _ rfl
  · exact hget _ (mfiSlot_bounded inds i hmfient) _ rfl

/-- Claim C5 (amended): on an accepted batch whose candles satisfy
`low ≤ open ≤ high`, `low ≤ close ≤ high` and additionally have
nonnegative lows and volumes, and whose EMA periods are at least 1, every
feature-row element *except the two RSI slots and the ATR slot* is finite
and lies in `[-1, 1]`.  The ATR slot is normalized against the price
bounds and escapes the interval (and is `NaN` during the warm-up); the
RSI slots can be `NaN` by the missing zero-loss guard (claim C4); and
without nonnegative volumes the MFI slot also escapes. -/
theorem C5_feature_rows_bounded (klines : List Kline) (params : IndicatorParams)
    (rows : List (List (Option ℚ)))
    (hacc : (calculateIndicators klines params).map normalizeIndicators = .ok rows)
    (hk : ∀ k ∈ klines, k.low ≤ k.open ∧ k.open ≤ k.high ∧ k.low ≤ k.close ∧
      k.close ≤ k.high ∧ 0 ≤ k.low ∧ 0 ≤ k.volume)
    (hpf : 1 ≤ params.fastEmaPeriod) (hps : 1 ≤ params.slowEmaPeriod)
    (hpss : 1 ≤ params.superSlowEmaPeriod) (hpu : 1 ≤ params.ultraSlowEmaPeriod) :
    ∀ row ∈ rows, ∀ j ∈ boundedSlots,
      ∃ q, row.get? j = some (some q) ∧ -1 ≤ q ∧ q ≤ 1 := by
  have hlen : maxPeriodRequired params < klines.length := by
    by_contra hle
    rw [calculateIndicators, if_pos (by omega)] at hacc
    simp [Except.map] at hacc
  rw [calculateIndicators_eq klines params hlen] at hacc
  simp only [Except.map, Except.ok.injEq] at hacc
  subst hacc
  have hcp : ∀ x ∈ klines.map (·.close),
      arrMin (klines.map (·.low)) ≤ x ∧ x ≤ arrMax (klines.map (·.high)) := by
    intro x hx
    obtain ⟨kk, hkk, rfl⟩ := List.mem_map.mp hx
    obtain ⟨_, _, hcc1, hcc2, _, _⟩ := hk kk hkk
    exact ⟨le_trans (arrMin_le _ _ (List.mem_map_of_mem _ hkk)) hcc1,
      le_trans hcc2 (le_arrMax _ _ (List.mem_map_of_mem _ hkk))⟩
  have hmfi0 : ∀ kk ∈ klines, 0 ≤ typicalPrice kk * kk.volume := by
    intro kk hkk
    obtain ⟨_, _, hcc1, hcc2, hll, hvv⟩ := hk kk hkk
    have hh : 0 ≤ kk.high := le_trans hll (le_trans hcc1 hcc2)
    have hcc : 0 ≤ kk.close := le_trans hll hcc1
    have htp : 0 ≤ typicalPrice kk := by
      rw [typicalPrice]
      apply div_nonneg _ (by norm_num)
      linarith
    exact mul_nonneg htp hvv
  intro row hrow
  simp only [normalizeIndicators] at hrow
  obtain ⟨p, hpmem, rfl⟩ := List.mem_map.mp hrow
  have hkmem : p.2 ∈ klines := snd_mem_of_mem_enumFrom klines 0 p hpmem
  obtain ⟨ho1, ho2, hc1, hc2, hl0, hv0⟩ := hk p.2 hkmem
  have hminlow : arrMin (klines.map (·.low)) ≤ p.2.low :=
    arrMin_le _ _ (List.mem_map_of_mem _ hkmem)
  have hmaxhigh : p.2.high ≤ arrMax (klines.map (·.high)) :=
    le_arrMax _ _ (List.mem_map_of_mem _ hkmem)
  refine normalizeRow_bounded _ p.1 p.2 ?_ ?_ ?_ ?_ ?_ ?_ ?_ ?_ ?_ rfl rfl rfl rfl rfl rfl ?_
  · exact ⟨le_trans hminlow ho1, le_trans ho2 hmaxhigh⟩
  · exact ⟨le_trans hminlow (le_trans ho1 ho2), hmaxhigh⟩
  · exact ⟨hminlow, le_trans (le_trans ho1 ho2) hmaxhigh⟩
  · exact ⟨le_trans hminlow hc1, le_trans hc2 hmaxhigh⟩
  · exact ⟨arrMin_le _ _ (List.mem_map_of_mem _ hkmem),
      le_arrMax _ _ (List.mem_map_of_mem _ hkmem)⟩
  · exact calculateEMA_bounds _ _ hpf _ _ hcp
  · exact calculateEMA_bounds _ _ hps _ _ hcp
  · exact calculateEMA_bounds _ _ hpss _ _ hcp
  · exact calculateEMA_bounds _ _ hpu _ _ hcp
  · exact calculateMFI_entries_range klines params.mfiPeriod hmfi0

/-- The feature rows `normalizeIndicators` produces for `sampleKlines`
under `sampleParams` (the RSI slots of the first two rows are `NaN`,
encoded `none`, and the ATR slot is `NaN` during the warm-up then falls
far below -1). -/
def sampleRows : List (List (Option ℚ)) :=
  [[some 0, some 1, some (-1), some 0, some 0, some 0, some 0, some 0, some 0,
    none, none, some 0, some 0, some 0, some 0, none],
   [some 0, some 1, some (-1), some 0, some 0, some 0, some 0, some 0, some 0,
    none, none, some 0, some 0, some 0, some 0, none],
   [some 0, some 1, some (-1), some 0, some 0, some 0, some 0, some 0, some 0,
    some 0, some 0, some 0, some 0, some 0, some 1, some (-7)],
   [some 0, some 1, some (-1), some 0, some 0, some 0, some 0, some 0, some 0,
    some 0, some 0, some 0, some 0, some 0, some 1, some (-15 / 2)]]

/-- Witness for C5 on `sampleKlines` with `sampleParams`. -/
theorem C5_feature_rows_bounded_witness :
    (calculateIndicators sampleKlines sampleParams).map normalizeIndicators =
        .ok sampleRows ∧
    (∀ k ∈ sampleKlines, k.low ≤ k.open ∧ k.open ≤ k.high ∧ k.low ≤ k.close ∧
      k.close ≤ k.high ∧ 0 ≤ k.low ∧ 0 ≤ k.volume) ∧
    1 ≤ sampleParams.fastEmaPeriod ∧
    (∀ row ∈ sampleRows, ∀ j ∈ boundedSlots,
      ∃ q, row.get? j = some (some q) ∧ -1 ≤ q ∧ q ≤ 1) :=
  ⟨by rfl, by decide, by decide,
    C5_feature_rows_bounded sampleKlines sampleParams sampleRows (by rfl) (by decide)
      (by decide) (by decide) (by decide) (by decide)⟩

/-- Claim C5 as stated is false: the batch `c5Klines` is accepted and
satisfies `low ≤ open ≤ high`, `low ≤ close ≤ high`, yet in row 2 the
normalized-ATR element is `-14/3 ∉ [-1, 1]` (ATR is scaled against the
price bounds), the normalized-MFI element is `31/21 > 1` (the negative
volume produces a negative money-flow ratio), and in row 0 the RSI
element is non-finite (`NaN`, encoded `none`) — not in `[-1, 1]`. -/
theorem C5_feature_rows_counterexample :
    (∀ k ∈ c5Klines, k.low ≤ k.open ∧ k.open ≤ k.high ∧ k.low ≤ k.close ∧
      k.close ≤ k.high) ∧
    ((calculateIndicators c5Klines sampleParams).toOption.map
        fun inds => ((normalizeIndicators inds).getD 2 []).getD 15 (some 0)) =
      some (some (-14 / 3)) ∧
    ((calculateIndicators c5Klines sampleParams).toOption.map
        fun inds => ((normalizeIndicators inds).getD 2 []).getD 14 (some 0)) =
      some (some (31 / 21)) ∧
    ((calculateIndicators c5Klines sampleParams).toOption.map
        fun inds => ((normalizeIndicators inds).getD 0 []).getD 9 (some 0)) =
      some none ∧
    ¬ ((-1 : ℚ) ≤ -14 / 3 ∧ (-14 / 3 : ℚ) ≤ 1) :=
  ⟨by decide, by decide, by decide, by decide, by norm_num⟩

end Toolbox
